import Mathlib

/-!
Verification of the `collect-rs` frequency-counting containers.

This file shallowly embeds the two container engines of the repository,
`FrequencyMap<K>` (src/containers/frequency_map.rs) and `UnicodePointMap`
(src/containers/unicode_point_map.rs), and settles the specified claims
about them.

Modelling choices:
* Rust's `HashMap<K, isize>` is modelled as an association list
  `List (K × Int)` whose keys are unique in every state the library can
  build.  `hmGet` models `HashMap::get` / `contains_key` (reading the
  binding), `hmSet` models `HashMap::insert` as well as writing through
  `get_mut` or the `entry` API (replace the existing binding, or add a new
  one), and `hmRemove` models `HashMap::remove`.  Iterating the hash map
  yields the bindings of the list; the order is unspecified in the source.
* `isize` / `i64` counts are modelled as `Int`; the spec makes no
  overflow claims, and on the 64-bit platform path `isize → i64` casts
  are value preserving.
* Unicode code points are modelled as `Nat`.  `char_to_valid_index`
  models the 32/64-bit platform branch of `util::char_to_valid_index`,
  where the scalar value converts to `usize` unchanged (the 16-bit
  clamping branch is dead on the platforms the claims quantify over).
* `usize` decrements of the cached `len` are modelled with truncated
  `Nat` subtraction.
-/

/-- First binding for `k` in an association list (models `HashMap::get`). -/
def hmGet {K : Type} [DecidableEq K] (l : List (K × Int)) (k : K) : Option Int :=
  match l with
  | [] => none
  | p :: rest => if p.1 = k then some p.2 else hmGet rest k

/-- Replace the binding for `k`, or add one (models `HashMap::insert` and
writes through `get_mut` / the `entry` API). -/
def hmSet {K : Type} [DecidableEq K] (l : List (K × Int)) (k : K) (v : Int) : List (K × Int) :=
  match l with
  | [] => [(k, v)]
  | p :: rest => if p.1 = k then (k, v) :: rest else p :: hmSet rest k v

/-- Remove the binding for `k` (models `HashMap::remove`). -/
def hmRemove {K : Type} [DecidableEq K] (l : List (K × Int)) (k : K) : List (K × Int) :=
  match l with
  | [] => []
  | p :: rest => if p.1 = k then rest else p :: hmRemove rest k

/-- Sum of the counts of an association list. -/
def sumCounts {K : Type} (l : List (K × Int)) : Int :=
  (l.map Prod.snd).sum

/-- `FrequencyMap<K>`: hashed record store plus cached running total
(src/containers/frequency_map.rs, lines 26-31). -/
structure FrequencyMap (K : Type) where
  map : List (K × Int)
  total : Int
deriving DecidableEq

/-- `FrequencyMap::new` (frequency_map.rs lines 37-45). -/
def FrequencyMap.new (K : Type) : FrequencyMap K :=
  { map := [], total := 0 }

/-- `FrequencyMap::insert` (frequency_map.rs lines 113-142). -/
def FrequencyMap.insert {K : Type} [DecidableEq K] (m : FrequencyMap K) (k : K) (count : Int) :
    FrequencyMap K × Option Int :=
  match hmGet m.map k with
  | some v =>
      let total1 := m.total - v
      let map1 := if count = 0 then hmRemove m.map k else hmSet m.map k count
      ({ map := map1, total := total1 + count }, some v)
  | none =>
      if count ≠ 0 then
        ({ map := hmSet m.map k count, total := m.total + count }, none)
      else
        (m, none)

/-- `FrequencyMap::push` (frequency_map.rs lines 151-158): the `entry`
API adds 1 to an existing count, or inserts 1; `total += 1`.  Note the
source has no zero-removal check on this path. -/
def FrequencyMap.push {K : Type} [DecidableEq K] (m : FrequencyMap K) (k : K) : FrequencyMap K :=
  let map1 :=
    match hmGet m.map k with
    | some v => hmSet m.map k (v + 1)
    | none => hmSet m.map k 1
  { map := map1, total := m.total + 1 }

/-- `FrequencyMap::push_into_map_` (frequency_map.rs lines 354-376),
returning the updated map and the total delta. -/
def FrequencyMap.push_into_map_ {K : Type} [DecidableEq K] (map : List (K × Int)) (k : K)
    (count : Int) : List (K × Int) × Int :=
  if count = 0 then
    (map, 0)
  else
    match hmGet map k with
    | some v =>
        if v + count = 0 then (hmRemove map k, count) else (hmSet map k (v + count), count)
    | none => (hmSet map k count, count)

/-- `FrequencyMap::push_n` (frequency_map.rs lines 165-175). -/
def FrequencyMap.push_n {K : Type} [DecidableEq K] (m : FrequencyMap K) (k : K) (count : Int) :
    FrequencyMap K :=
  let r := FrequencyMap.push_into_map_ m.map k count
  { map := r.1, total := m.total + r.2 }

/-- `FrequencyMap::remove` (frequency_map.rs lines 180-195). -/
def FrequencyMap.remove {K : Type} [DecidableEq K] (m : FrequencyMap K) (k : K) :
    FrequencyMap K × Option Int :=
  match hmGet m.map k with
  | some v => ({ map := hmRemove m.map k, total := m.total - v }, some v)
  | none => (m, none)

/-- `FrequencyMap::drain` (frequency_map.rs lines 103-107).  The source
assigns `self.total = 0` before creating the map's drain iterator, so the
reset of `total` does not depend on the iterator ever being advanced; the
yielded records are the records held at call time, and the map itself is
left empty. -/
def FrequencyMap.drain {K : Type} (m : FrequencyMap K) : FrequencyMap K × List (K × Int) :=
  let m1 : FrequencyMap K := { m with total := 0 }
  ({ m1 with map := [] }, m1.map)

/-- `FrequencyMap::append` (frequency_map.rs lines 73-98, the compiled
`push_n` variant): drain `other` and `push_n` every drained record. -/
def FrequencyMap.append {K : Type} [DecidableEq K] (a b : FrequencyMap K) :
    FrequencyMap K × FrequencyMap K :=
  let d := b.drain
  (d.2.foldl (fun acc p => acc.push_n p.1 p.2) a, d.1)

/-- `FrequencyMap::get` (frequency_map.rs lines 287-297, via `get_`). -/
def FrequencyMap.get {K : Type} [DecidableEq K] (m : FrequencyMap K) (k : K) : Int :=
  (hmGet m.map k).getD 0

/-- `FrequencyMap::contains_key` (frequency_map.rs lines 273-282). -/
def FrequencyMap.contains_key {K : Type} [DecidableEq K] (m : FrequencyMap K) (k : K) : Bool :=
  (hmGet m.map k).isSome

/-- `FrequencyMap::is_empty` (frequency_map.rs lines 320-322 and 381-383):
`0 == self.total`. -/
def FrequencyMap.is_empty {K : Type} (m : FrequencyMap K) : Bool :=
  m.total == 0

/-- `FrequencyMap::len` (frequency_map.rs lines 326-328 and 386-388). -/
def FrequencyMap.len {K : Type} (m : FrequencyMap K) : Nat :=
  m.map.length

/-- `FrequencyMap::iter` (frequency_map.rs lines 303-305): yields all
key-count pairs of the backing map. -/
def FrequencyMap.iter {K : Type} (m : FrequencyMap K) : List (K × Int) :=
  m.map

/-- A mutating operation on a `FrequencyMap` (the operations the
invariant claims quantify over). -/
inductive FMOp (K : Type) where
  | push : K → FMOp K
  | push_n : K → Int → FMOp K
  | insert : K → Int → FMOp K
  | remove : K → FMOp K

/-- Apply one operation to a map state. -/
def FMOp.apply {K : Type} [DecidableEq K] (m : FrequencyMap K) : FMOp K → FrequencyMap K
  | .push k => m.push k
  | .push_n k n => m.push_n k n
  | .insert k n => (m.insert k n).1
  | .remove k => (m.remove k).1

/-- Run a sequence of operations starting from a freshly created map. -/
def FMOp.run {K : Type} [DecidableEq K] (ops : List (FMOp K)) : FrequencyMap K :=
  ops.foldl FMOp.apply (FrequencyMap.new K)

/-- `constants::MAXIMUM_VALID_CHAR_VALUE` (unicode_point_map.rs line 23). -/
def MAXIMUM_VALID_CHAR_VALUE : Nat := 0x10ffff

/-- `constants::DEFAULT_CONTIGUOUS_CEILING` (unicode_point_map.rs lines
18-21): `'\u{80}'` in debug profiles, `'\u{200}'` in release profiles.
The debug value is used here; no claim depends on which of the two is
chosen. -/
def DEFAULT_CONTIGUOUS_CEILING : Nat := 0x80

/-- `util::char_to_valid_index` (unicode_point_map.rs lines 39-79) on the
32/64-bit platform path: the scalar value (precondition: `< 0x110000`)
converts to the index unchanged. -/
def char_to_valid_index (c : Nat) : Nat := c

/-- `UnicodePointMap`: dense per-code-point storage for low code points,
hashed sparse storage above the ceiling, plus cached `len` and `total`
(unicode_point_map.rs lines 86-96). -/
structure UnicodePointMap where
  vec : List Int
  map : List (Nat × Int)
  len : Nat
  total : Int
deriving DecidableEq

/-- `UnicodePointMap::new` (unicode_point_map.rs lines 103-145), on the
32/64-bit platform path: the ceiling is clamped to the maximum valid
char value and the dense tier starts as that many zeros. -/
def UnicodePointMap.new (ceiling : Nat) : UnicodePointMap :=
  let c := if ceiling > MAXIMUM_VALID_CHAR_VALUE then MAXIMUM_VALID_CHAR_VALUE else ceiling
  { vec := List.replicate c 0, map := [], len := 0, total := 0 }

/-- `UnicodePointMap::default` (unicode_point_map.rs lines 557-563). -/
def UnicodePointMap.default : UnicodePointMap :=
  UnicodePointMap.new DEFAULT_CONTIGUOUS_CEILING

/-- `UnicodePointMap::insert` (unicode_point_map.rs lines 165-227). -/
def UnicodePointMap.insert (m : UnicodePointMap) (c : Nat) (count : Int) :
    UnicodePointMap × Option Int :=
  let ix := char_to_valid_index c
  if ix < m.vec.length then
    let prev := m.vec.getD ix 0
    let vec1 := m.vec.set ix count
    let curr := count
    let len1 :=
      if prev = 0 then (if curr ≠ 0 then m.len + 1 else m.len)
      else if curr = 0 then m.len - 1 else m.len
    ({ vec := vec1, map := m.map, len := len1, total := m.total + (curr - prev) },
      if prev = 0 then none else some prev)
  else
    match hmGet m.map c with
    | some prev =>
        let map1 := if count = 0 then hmRemove m.map c else hmSet m.map c count
        let len1 := if count = 0 then m.len - 1 else m.len
        ({ vec := m.vec, map := map1, len := len1, total := m.total + (count - prev) },
          some prev)
    | none =>
        if count ≠ 0 then
          ({ vec := m.vec, map := hmSet m.map c count, len := m.len + 1,
             total := m.total + count }, none)
        else
          ({ vec := m.vec, map := m.map, len := m.len, total := m.total + count }, none)

/-- `UnicodePointMap::push` (unicode_point_map.rs lines 234-266).  Note
that neither tier removes a record whose count reaches 0 on this path. -/
def UnicodePointMap.push (m : UnicodePointMap) (c : Nat) : UnicodePointMap :=
  let ix := char_to_valid_index c
  if ix < m.vec.length then
    let prev := m.vec.getD ix 0
    let vec1 := m.vec.set ix (prev + 1)
    let len1 := if prev = 0 then m.len + 1 else m.len
    { vec := vec1, map := m.map, len := len1, total := m.total + 1 }
  else
    match hmGet m.map c with
    | some v =>
        { vec := m.vec, map := hmSet m.map c (v + 1), len := m.len, total := m.total + 1 }
    | none =>
        { vec := m.vec, map := hmSet m.map c 1, len := m.len + 1, total := m.total + 1 }

/-- `UnicodePointMap::push_n` (unicode_point_map.rs lines 273-317). -/
def UnicodePointMap.push_n (m : UnicodePointMap) (c : Nat) (count : Int) : UnicodePointMap :=
  if count ≠ 0 then
    let ix := char_to_valid_index c
    if ix < m.vec.length then
      let prev := m.vec.getD ix 0
      let nw := prev + count
      let vec1 := m.vec.set ix nw
      let len1 :=
        if prev = 0 then (if nw = 0 then m.len else m.len + 1)
        else if nw = 0 then m.len - 1 else m.len
      { vec := vec1, map := m.map, len := len1, total := m.total + count }
    else
      match hmGet m.map c with
      | some v =>
          if v + count = 0 then
            { vec := m.vec, map := hmRemove m.map c, len := m.len - 1,
              total := m.total + count }
          else
            { vec := m.vec, map := hmSet m.map c (v + count), len := m.len,
              total := m.total + count }
      | none =>
          { vec := m.vec, map := hmSet m.map c count, len := m.len + 1,
            total := m.total + count }
  else
    m

/-- `UnicodePointMap::remove` (unicode_point_map.rs lines 325-360). -/
def UnicodePointMap.remove (m : UnicodePointMap) (c : Nat) : UnicodePointMap × Option Int :=
  let ix := char_to_valid_index c
  if ix < m.vec.length then
    let prev := m.vec.getD ix 0
    let vec1 := m.vec.set ix 0
    if prev ≠ 0 then
      ({ vec := vec1, map := m.map, len := m.len - 1, total := m.total - prev }, some prev)
    else
      ({ vec := vec1, map := m.map, len := m.len, total := m.total }, none)
  else
    match hmGet m.map c with
    | some v =>
        ({ vec := m.vec, map := hmRemove m.map c, len := m.len - 1, total := m.total - v },
          some v)
    | none => (m, none)

/-- `UnicodePointMap::get` (unicode_point_map.rs lines 401-412). -/
def UnicodePointMap.get (m : UnicodePointMap) (c : Nat) : Int :=
  let ix := char_to_valid_index c
  if ix < m.vec.length then m.vec.getD ix 0
  else (hmGet m.map c).getD 0

/-- `UnicodePointMap::contains_key` (unicode_point_map.rs lines 378-389). -/
def UnicodePointMap.contains_key (m : UnicodePointMap) (c : Nat) : Bool :=
  let ix := char_to_valid_index c
  if ix < m.vec.length then m.vec.getD ix 0 != 0
  else (hmGet m.map c).isSome

/-- `UnicodePointMap::is_empty` (unicode_point_map.rs lines 416-418 and
524-526): `0 == self.len`. -/
def UnicodePointMap.is_empty (m : UnicodePointMap) : Bool :=
  m.len == 0

/-- `FromIterator<char> for UnicodePointMap` (unicode_point_map.rs lines
608-621): default-construct, then `push` every code point. -/
def UnicodePointMap.from_iter_chars (cs : List Nat) : UnicodePointMap :=
  cs.foldl (fun u c => u.push c) UnicodePointMap.default

/-- Iterator state for `UnicodePointMap` (unicode_point_map.rs lines
422-429). -/
structure UPMIter where
  upm : UnicodePointMap
  vec_index : Option Nat
  map_iter : Option (List (Nat × Int))

/-- `UnicodePointMap::iter` (unicode_point_map.rs lines 492-502). -/
def UnicodePointMap.iter (u : UnicodePointMap) : UPMIter :=
  { upm := u, vec_index := some 0, map_iter := none }

/-- The `while` loop of `UnicodePointMapIter::next`: first index at or
after `ix` holding a non-zero count. -/
def findNz (vec : List Int) (ix : Nat) : Option Nat :=
  if h : ix < vec.length then
    if vec.getD ix 0 ≠ 0 then some ix else findNz vec (ix + 1)
  else
    none
termination_by vec.length - ix
decreasing_by all_goals omega

/-- `UnicodePointMapIter::next` (unicode_point_map.rs lines 441-484):
scan the dense tier from the saved index, skipping zero counts; once the
dense tier is exhausted, switch to the sparse tier's own iterator; when
both are exhausted, keep returning `none`.  The mutation of `self` is
modelled by returning the successor state. -/
def UPMIter.next (it : UPMIter) : Option (Nat × Int) × UPMIter :=
  match it.vec_index with
  | some ix =>
    match findNz it.upm.vec ix with
    | some j =>
        (some (j, it.upm.vec.getD j 0), { it with vec_index := some (j + 1) })
    | none =>
        match it.upm.map with
        | p :: rest => (some p, { upm := it.upm, vec_index := none, map_iter := some rest })
        | [] => (none, { upm := it.upm, vec_index := none, map_iter := none })
  | none =>
    match it.map_iter with
    | some (p :: rest) =>
        (some p, { upm := it.upm, vec_index := none, map_iter := some rest })
    | some [] => (none, { upm := it.upm, vec_index := none, map_iter := none })
    | none => (none, { upm := it.upm, vec_index := none, map_iter := none })

/-- An upper bound on the number of `next` calls an iterator state can
still answer with an item. -/
def UPMIter.size (it : UPMIter) : Nat :=
  (match it.vec_index with
   | some ix => it.upm.vec.length + 1 - ix + it.upm.map.length + 1
   | none => 0)
  + (match it.map_iter with
     | some l => l.length + 1
     | none => 0)

/-- All items an iterator yields within `fuel` calls to `next`. -/
def toListFuel : Nat → UPMIter → List (Nat × Int)
  | 0, _ => []
  | n + 1, it =>
      match UPMIter.next it with
      | (some p, it1) => p :: toListFuel n it1
      | (none, _) => []

/-- The full yield sequence of an iterator (the fuel is provably
sufficient). -/
def UPMIter.toList (it : UPMIter) : List (Nat × Int) :=
  toListFuel it.size it

/-- The non-zero dense-tier entries at or after index `ix`, in increasing
index order. -/
def densePairsFrom (vec : List Int) (ix : Nat) : List (Nat × Int) :=
  if h : ix < vec.length then
    if vec.getD ix 0 ≠ 0 then (ix, vec.getD ix 0) :: densePairsFrom vec (ix + 1)
    else densePairsFrom vec (ix + 1)
  else
    []
termination_by vec.length - ix
decreasing_by all_goals omega

/-! ## Association-list lemmas -/

theorem hmGet_eq_none_iff {K : Type} [DecidableEq K] (l : List (K × Int)) (k : K) :
    hmGet l k = none ↔ ∀ p ∈ l, p.1 ≠ k := by
  induction l with
  | nil => simp [hmGet]
  | cons p rest ih =>
      by_cases h : p.1 = k <;> simp [hmGet, h, ih]

theorem hmGet_hmSet_self {K : Type} [DecidableEq K] (l : List (K × Int)) (k : K) (v : Int) :
    hmGet (hmSet l k v) k = some v := by
  induction l with
  | nil => simp [hmGet, hmSet]
  | cons p rest ih =>
      by_cases h : p.1 = k <;> simp [hmGet, hmSet, h, ih]

theorem hmGet_hmSet_ne {K : Type} [DecidableEq K] (l : List (K × Int)) (k0 k : K) (v : Int)
    (h : k ≠ k0) : hmGet (hmSet l k0 v) k = hmGet l k := by
  induction l with
  | nil => simp [hmGet, hmSet, Ne.symm h]
  | cons p rest ih =>
      by_cases hp : p.1 = k0
      · simp [hmGet, hmSet, hp, Ne.symm h]
      · simp only [hmSet, if_neg hp]
        by_cases hq : p.1 = k <;> simp [hmGet, hq, ih]

theorem hmGet_hmRemove_ne {K : Type} [DecidableEq K] (l : List (K × Int)) (k0 k : K)
    (h : k ≠ k0) : hmGet (hmRemove l k0) k = hmGet l k := by
  induction l with
  | nil => simp [hmRemove]
  | cons p rest ih =>
      by_cases hp : p.1 = k0
      · simp [hmRemove, hmGet, hp, Ne.symm h]
      · simp only [hmRemove, if_neg hp]
        by_cases hq : p.1 = k <;> simp [hmGet, hq, ih]

theorem hmGet_hmRemove_self {K : Type} [DecidableEq K] (l : List (K × Int)) (k : K)
    (h : (l.map Prod.fst).Nodup) : hmGet (hmRemove l k) k = none := by
  induction l with
  | nil => simp [hmRemove, hmGet]
  | cons p rest ih =>
      simp only [List.map_cons, List.nodup_cons] at h
      by_cases hp : p.1 = k
      · rw [hmRemove, if_pos hp, hmGet_eq_none_iff]
        intro q hq hqk
        apply h.1
        have hmem : q.1 ∈ List.map Prod.fst rest := List.mem_map_of_mem Prod.fst hq
        rwa [hqk, ← hp] at hmem
      · rw [hmRemove, if_neg hp, hmGet, if_neg hp]
        exact ih h.2

theorem hmSet_of_none {K : Type} [DecidableEq K] (l : List (K × Int)) (k : K) (v : Int)
    (h : hmGet l k = none) : hmSet l k v = l ++ [(k, v)] := by
  induction l with
  | nil => simp [hmSet]
  | cons p rest ih =>
      rw [hmGet] at h
      by_cases hp : p.1 = k
      · rw [if_pos hp] at h; exact absurd h (by simp)
      · rw [if_neg hp] at h
        simp [hmSet, hp, ih h]

theorem hmRemove_of_none {K : Type} [DecidableEq K] (l : List (K × Int)) (k : K)
    (h : hmGet l k = none) : hmRemove l k = l := by
  induction l with
  | nil => simp [hmRemove]
  | cons p rest ih =>
      rw [hmGet] at h
      by_cases hp : p.1 = k
      · rw [if_pos hp] at h; exact absurd h (by simp)
      · rw [if_neg hp] at h
        simp [hmRemove, hp, ih h]

theorem mem_keys_hmSet {K : Type} [DecidableEq K] (l : List (K × Int)) (k : K) (v : Int)
    (a : K) (h : a ∈ (hmSet l k v).map Prod.fst) : a ∈ l.map Prod.fst ∨ a = k := by
  induction l with
  | nil =>
      rw [hmSet] at h
      simp at h
      exact Or.inr h
  | cons p rest ih =>
      by_cases hp : p.1 = k
      · rw [hmSet, if_pos hp] at h
        simp only [List.map_cons, List.mem_cons] at h ⊢
        rcases h with h | h
        · exact Or.inr h
        · exact Or.inl (Or.inr h)
      · rw [hmSet, if_neg hp] at h
        simp only [List.map_cons, List.mem_cons] at h ⊢
        rcases h with h | h
        · exact Or.inl (Or.inl h)
        · rcases ih h with h1 | h1
          · exact Or.inl (Or.inr h1)
          · exact Or.inr h1

theorem mem_keys_hmRemove {K : Type} [DecidableEq K] (l : List (K × Int)) (k : K)
    (a : K) (h : a ∈ (hmRemove l k).map Prod.fst) : a ∈ l.map Prod.fst := by
  induction l with
  | nil => simp [hmRemove] at h
  | cons p rest ih =>
      by_cases hp : p.1 = k
      · rw [hmRemove, if_pos hp] at h
        simp only [List.map_cons, List.mem_cons]
        exact Or.inr h
      · rw [hmRemove, if_neg hp] at h
        simp only [List.map_cons, List.mem_cons] at h ⊢
        rcases h with h | h
        · exact Or.inl h
        · exact Or.inr (ih h)

theorem nodup_hmSet {K : Type} [DecidableEq K] (l : List (K × Int)) (k : K) (v : Int)
    (h : (l.map Prod.fst).Nodup) : ((hmSet l k v).map Prod.fst).Nodup := by
  induction l with
  | nil => simp [hmSet]
  | cons p rest ih =>
      simp only [List.map_cons, List.nodup_cons] at h
      by_cases hp : p.1 = k
      · rw [hmSet, if_pos hp]
        simp only [List.map_cons, List.nodup_cons]
        exact ⟨fun hmem => h.1 (hp ▸ hmem), h.2⟩
      · rw [hmSet, if_neg hp]
        simp only [List.map_cons, List.nodup_cons]
        refine ⟨fun hmem => ?_, ih h.2⟩
        rcases mem_keys_hmSet rest k v p.1 hmem with h1 | h1
        · exact h.1 h1
        · exact hp h1

theorem nodup_hmRemove {K : Type} [DecidableEq K] (l : List (K × Int)) (k : K)
    (h : (l.map Prod.fst).Nodup) : ((hmRemove l k).map Prod.fst).Nodup := by
  induction l with
  | nil => simp [hmRemove]
  | cons p rest ih =>
      simp only [List.map_cons, List.nodup_cons] at h
      by_cases hp : p.1 = k
      · rw [hmRemove, if_pos hp]; exact h.2
      · rw [hmRemove, if_neg hp]
        simp only [List.map_cons, List.nodup_cons]
        exact ⟨fun hmem => h.1 (mem_keys_hmRemove rest k p.1 hmem), ih h.2⟩

theorem sumCounts_hmSet_some {K : Type} [DecidableEq K] (l : List (K × Int)) (k : K)
    (v c : Int) (h : hmGet l k = some v) : sumCounts (hmSet l k c) = sumCounts l - v + c := by
  induction l with
  | nil => simp [hmGet] at h
  | cons p rest ih =>
      rw [hmGet] at h
      by_cases hp : p.1 = k
      · rw [if_pos hp] at h
        injection h with hv
        rw [hmSet, if_pos hp]
        simp only [sumCounts, List.map_cons, List.sum_cons] at *
        omega
      · rw [if_neg hp] at h
        rw [hmSet, if_neg hp]
        simp only [sumCounts, List.map_cons, List.sum_cons] at *
        have := ih h
        omega

theorem sumCounts_hmSet_none {K : Type} [DecidableEq K] (l : List (K × Int)) (k : K)
    (c : Int) (h : hmGet l k = none) : sumCounts (hmSet l k c) = sumCounts l + c := by
  rw [hmSet_of_none l k c h]
  simp [sumCounts]

theorem sumCounts_hmRemove_some {K : Type} [DecidableEq K] (l : List (K × Int)) (k : K)
    (v : Int) (h : hmGet l k = some v) : sumCounts (hmRemove l k) = sumCounts l - v := by
  induction l with
  | nil => simp [hmGet] at h
  | cons p rest ih =>
      rw [hmGet] at h
      by_cases hp : p.1 = k
      · rw [if_pos hp] at h
        injection h with hv
        rw [hmRemove, if_pos hp]
        simp only [sumCounts, List.map_cons, List.sum_cons] at *
        omega
      · rw [if_neg hp] at h
        rw [hmRemove, if_neg hp]
        simp only [sumCounts, List.map_cons, List.sum_cons] at *
        have := ih h
        omega

/-! ## The generic map's cached total always equals the sum of its counts -/

theorem fm_apply_total_eq_sum {K : Type} [DecidableEq K] (m : FrequencyMap K) (op : FMOp K)
    (h : m.total = sumCounts m.map) :
    (FMOp.apply m op).total = sumCounts (FMOp.apply m op).map := by
  cases op with
  | push k =>
      simp only [FMOp.apply, FrequencyMap.push]
      cases hg : hmGet m.map k with
      | some v =>
          simp only [hg]
          show m.total + 1 = sumCounts (hmSet m.map k (v + 1))
          rw [sumCounts_hmSet_some m.map k v (v + 1) hg]
          omega
      | none =>
          simp only [hg]
          show m.total + 1 = sumCounts (hmSet m.map k 1)
          rw [sumCounts_hmSet_none m.map k 1 hg]
          omega
  | push_n k n =>
      simp only [FMOp.apply, FrequencyMap.push_n, FrequencyMap.push_into_map_]
      by_cases hn : n = 0
      · rw [if_pos hn]
        show m.total + 0 = sumCounts m.map
        omega
      · rw [if_neg hn]
        cases hg : hmGet m.map k with
        | some v =>
            simp only [hg]
            by_cases hz : v + n = 0
            · rw [if_pos hz]
              show m.total + n = sumCounts (hmRemove m.map k)
              rw [sumCounts_hmRemove_some m.map k v hg]
              omega
            · rw [if_neg hz]
              show m.total + n = sumCounts (hmSet m.map k (v + n))
              rw [sumCounts_hmSet_some m.map k v (v + n) hg]
              omega
        | none =>
            simp only [hg]
            show m.total + n = sumCounts (hmSet m.map k n)
            rw [sumCounts_hmSet_none m.map k n hg]
            omega
  | insert k n =>
      simp only [FMOp.apply, FrequencyMap.insert]
      cases hg : hmGet m.map k with
      | some v =>
          simp only [hg]
          by_cases hn : n = 0
          · rw [if_pos hn]
            show m.total - v + n = sumCounts (hmRemove m.map k)
            rw [sumCounts_hmRemove_some m.map k v hg]
            omega
          · rw [if_neg hn]
            show m.total - v + n = sumCounts (hmSet m.map k n)
            rw [sumCounts_hmSet_some m.map k v n hg]
            omega
      | none =>
          simp only [hg]
          by_cases hn : n = 0
          · rw [if_neg (fun hne => hne hn)]
            exact h
          · rw [if_pos hn]
            show m.total + n = sumCounts (hmSet m.map k n)
            rw [sumCounts_hmSet_none m.map k n hg]
            omega
  | remove k =>
      simp only [FMOp.apply, FrequencyMap.remove]
      cases hg : hmGet m.map k with
      | some v =>
          simp only [hg]
          show m.total - v = sumCounts (hmRemove m.map k)
          rw [sumCounts_hmRemove_some m.map k v hg]
          omega
      | none =>
          simp only [hg]
          exact h

theorem fm_foldl_total_eq_sum {K : Type} [DecidableEq K] (ops : List (FMOp K))
    (m : FrequencyMap K) (h : m.total = sumCounts m.map) :
    (ops.foldl FMOp.apply m).total = sumCounts (ops.foldl FMOp.apply m).map := by
  induction ops generalizing m with
  | nil => simpa using h
  | cons op rest ih =>
      rw [List.foldl_cons]
      exact ih (FMOp.apply m op) (fm_apply_total_eq_sum m op h)

/-! ## Claim theorems (concrete evaluations and invariants) -/

/-- Claim C1 (code bug): `FrequencyMap::push` on a key whose stored
count is exactly -1 does NOT remove the record.  Starting from a new
map, `insert(1, -1)` then `push(1)` leaves a record with stored count
exactly 0, which `iter()` yields — contradicting both the claim and the
source's own doc comment on `push` ("In the case that the resulting
count of an existing record is 0 then the record is removed"): the
implementation uses the `entry` API with no zero-removal check rather
than the general count-update path. -/
theorem fm_push_minus_one_leaves_zero_record :
    (((FrequencyMap.new Nat).insert 1 (-1)).1.push 1).iter = [(1, 0)] ∧
    (((FrequencyMap.new Nat).insert 1 (-1)).1.push 1).contains_key 1 = true ∧
    hmGet (((FrequencyMap.new Nat).insert 1 (-1)).1.push 1).map 1 = some 0 ∧
    (((FrequencyMap.new Nat).insert 1 (-1)).1.push 1).len = 1 := by decide

/-- Claim C2 (code bug): `UnicodePointMap::push` on a code point whose
stored count is exactly -1 breaks the claimed bookkeeping invariants.
Dense tier (ceiling 4, code point 2): after `insert(2, -1)` then
`push(2)`, `len()` is 1 although no dense index holds a non-zero count
and the sparse tier is empty.  Sparse tier (code point 6): after
`insert(6, -1)` then `push(6)`, the sparse tier retains an entry with
stored count exactly 0.  Both contradict the source's own doc comment on
`push` and the `debug_assert!(0 != *v)` on the sparse paths. -/
theorem upm_push_minus_one_breaks_invariants :
    ((((UnicodePointMap.new 4).insert 2 (-1)).1.push 2).len = 1 ∧
      (((((UnicodePointMap.new 4).insert 2 (-1)).1.push 2).vec.filter
          (fun x => x != 0)).length +
        (((UnicodePointMap.new 4).insert 2 (-1)).1.push 2).map.length = 0)) ∧
    ((((UnicodePointMap.new 4).insert 6 (-1)).1.push 6).map = [(6, 0)] ∧
      (((UnicodePointMap.new 4).insert 6 (-1)).1.push 6).len = 1) := by decide

/-- Claim C3: for every sequence of push/push_n/insert/remove operations
on a generic `FrequencyMap` (starting from a new map), `total()` equals
the sum of the counts yielded by `iter()`. -/
theorem fm_total_eq_sum_iter {K : Type} [DecidableEq K] (ops : List (FMOp K)) :
    (FMOp.run ops).total = sumCounts (FMOp.run ops).iter :=
  fm_foldl_total_eq_sum ops (FrequencyMap.new K) rfl

/-- Claim C4: the generic map's `is_empty()` is true exactly when
`total() == 0` (so `{1: 5, 2: -5}` reports empty with `len() == 2`),
while the code-point map's `is_empty()` is true exactly when
`len() == 0` (so the analogous map with cancelling counts does not
report empty). -/
theorem is_empty_definitions :
    (∀ (K : Type) (m : FrequencyMap K), m.is_empty = true ↔ m.total = 0) ∧
    ((((FrequencyMap.new Nat).push_n 1 5).push_n 2 (-5)).is_empty = true ∧
      (((FrequencyMap.new Nat).push_n 1 5).push_n 2 (-5)).len = 2 ∧
      (((FrequencyMap.new Nat).push_n 1 5).push_n 2 (-5)).total = 0) ∧
    (∀ u : UnicodePointMap, u.is_empty = true ↔ u.len = 0) ∧
    ((((UnicodePointMap.new 4).push_n 1 5).push_n 2 (-5)).is_empty = false ∧
      (((UnicodePointMap.new 4).push_n 1 5).push_n 2 (-5)).len = 2 ∧
      (((UnicodePointMap.new 4).push_n 1 5).push_n 2 (-5)).total = 0) := by
  refine ⟨fun K m => ?_, by decide, fun u => ?_, by decide⟩
  · simp [FrequencyMap.is_empty]
  · simp [UnicodePointMap.is_empty]

set_option maxRecDepth 4000 in
/-- Claim C9: building a `UnicodePointMap` from the character iterator
"aab" (code points 97, 97, 98) yields `get('a') == 2`, `get('b') == 1`,
`len() == 2` and `total() == 3`; removing 'a' returns count 2 and
leaves `len() == 1`. -/
theorem upm_from_iter_aab_scenario :
    (UnicodePointMap.from_iter_chars [97, 97, 98]).get 97 = 2 ∧
    (UnicodePointMap.from_iter_chars [97, 97, 98]).get 98 = 1 ∧
    (UnicodePointMap.from_iter_chars [97, 97, 98]).len = 2 ∧
    (UnicodePointMap.from_iter_chars [97, 97, 98]).total = 3 ∧
    ((UnicodePointMap.from_iter_chars [97, 97, 98]).remove 97).2 = some 2 ∧
    ((UnicodePointMap.from_iter_chars [97, 97, 98]).remove 97).1.len = 1 := by decide

/-- Claim C10: `FrequencyMap::drain` resets `total` to 0 eagerly at the
moment of the call — the source assigns `self.total = 0` before the
map's drain iterator is even created, so the post-call state has
`total() == 0` whether or not the returned iterator is ever advanced;
the yielded records are exactly those held at call time. -/
theorem fm_drain_resets_total_eagerly {K : Type} (m : FrequencyMap K) :
    (m.drain).1.total = 0 ∧ (m.drain).2 = m.map ∧ (m.drain).1.map = [] :=
  ⟨rfl, rfl, rfl⟩

/-! ## Dense-tier list lemmas -/

theorem getD_set_self (l : List Int) (ix : Nat) (a : Int) (h : ix < l.length) :
    (l.set ix a).getD ix 0 = a := by
  induction l generalizing ix with
  | nil => simp at h
  | cons x rest ih =>
      cases ix with
      | zero => simp
      | succ n =>
          simp only [List.set_cons_succ, List.getD_cons_succ]
          exact ih n (by simpa using h)

theorem set_zero_of_getD_zero (l : List Int) (ix : Nat) (h : l.getD ix 0 = 0) :
    l.set ix 0 = l := by
  induction l generalizing ix with
  | nil => simp
  | cons x rest ih =>
      cases ix with
      | zero => simp_all
      | succ n =>
          simp only [List.set_cons_succ]
          rw [ih n (by simpa using h)]

theorem hmRemove_append_single {K : Type} [DecidableEq K] (l : List (K × Int)) (k : K)
    (v : Int) (h : hmGet l k = none) : hmRemove (l ++ [(k, v)]) k = l := by
  induction l with
  | nil => simp [hmRemove]
  | cons p rest ih =>
      rw [hmGet] at h
      by_cases hp : p.1 = k
      · rw [if_pos hp] at h; exact absurd h (by simp)
      · rw [if_neg hp] at h
        simp [hmRemove, hp, ih h]


/-! ## Branch characterisations of the container operations -/

theorem fm_insert_present {K : Type} [DecidableEq K] (m : FrequencyMap K) (k : K) (n v : Int)
    (hv : hmGet m.map k = some v) :
    m.insert k n =
      ({ map := if n = 0 then hmRemove m.map k else hmSet m.map k n,
         total := m.total - v + n }, some v) := by
  simp only [FrequencyMap.insert, hv]

theorem fm_insert_absent_zero {K : Type} [DecidableEq K] (m : FrequencyMap K) (k : K)
    (hv : hmGet m.map k = none) : m.insert k 0 = (m, none) := by
  simp [FrequencyMap.insert, hv]

theorem fm_insert_absent_nz {K : Type} [DecidableEq K] (m : FrequencyMap K) (k : K) (n : Int)
    (hv : hmGet m.map k = none) (hn : n ≠ 0) :
    m.insert k n = ({ map := hmSet m.map k n, total := m.total + n }, none) := by
  simp only [FrequencyMap.insert, hv]
  rw [if_pos hn]

theorem fm_push_n_zero {K : Type} [DecidableEq K] (m : FrequencyMap K) (k : K) :
    m.push_n k 0 = { map := m.map, total := m.total + 0 } := by
  simp [FrequencyMap.push_n, FrequencyMap.push_into_map_]

theorem fm_push_n_absent {K : Type} [DecidableEq K] (m : FrequencyMap K) (k : K) (n : Int)
    (hv : hmGet m.map k = none) (hn : n ≠ 0) :
    m.push_n k n = { map := hmSet m.map k n, total := m.total + n } := by
  simp only [FrequencyMap.push_n, FrequencyMap.push_into_map_, hv]
  rw [if_neg hn]

theorem fm_push_n_present_cancel {K : Type} [DecidableEq K] (m : FrequencyMap K) (k : K)
    (n v : Int) (hv : hmGet m.map k = some v) (hn : n ≠ 0) (hz : v + n = 0) :
    m.push_n k n = { map := hmRemove m.map k, total := m.total + n } := by
  simp only [FrequencyMap.push_n, FrequencyMap.push_into_map_, hv]
  rw [if_neg hn, if_pos hz]

theorem fm_push_n_present_keep {K : Type} [DecidableEq K] (m : FrequencyMap K) (k : K)
    (n v : Int) (hv : hmGet m.map k = some v) (hn : n ≠ 0) (hz : v + n ≠ 0) :
    m.push_n k n = { map := hmSet m.map k (v + n), total := m.total + n } := by
  simp only [FrequencyMap.push_n, FrequencyMap.push_into_map_, hv]
  rw [if_neg hn, if_neg hz]

theorem upm_contains_dense (u : UnicodePointMap) (c : Nat) (hix : c < u.vec.length) :
    u.contains_key c = (u.vec.getD c 0 != 0) := by
  simp only [UnicodePointMap.contains_key, char_to_valid_index]
  rw [if_pos hix]

theorem upm_contains_sparse (u : UnicodePointMap) (c : Nat) (hix : ¬c < u.vec.length) :
    u.contains_key c = (hmGet u.map c).isSome := by
  simp only [UnicodePointMap.contains_key, char_to_valid_index]
  rw [if_neg hix]

theorem upm_get_dense (u : UnicodePointMap) (c : Nat) (hix : c < u.vec.length) :
    u.get c = u.vec.getD c 0 := by
  simp only [UnicodePointMap.get, char_to_valid_index]
  rw [if_pos hix]

theorem upm_get_sparse (u : UnicodePointMap) (c : Nat) (hix : ¬c < u.vec.length) :
    u.get c = (hmGet u.map c).getD 0 := by
  simp only [UnicodePointMap.get, char_to_valid_index]
  rw [if_neg hix]

theorem upm_insert_dense (u : UnicodePointMap) (c : Nat) (n : Int) (hix : c < u.vec.length) :
    u.insert c n =
      ({ vec := u.vec.set c n, map := u.map,
         len := if u.vec.getD c 0 = 0 then (if n ≠ 0 then u.len + 1 else u.len)
                else if n = 0 then u.len - 1 else u.len,
         total := u.total + (n - u.vec.getD c 0) },
       if u.vec.getD c 0 = 0 then none else some (u.vec.getD c 0)) := by
  simp only [UnicodePointMap.insert, char_to_valid_index]
  rw [if_pos hix]

theorem upm_insert_sparse_present (u : UnicodePointMap) (c : Nat) (n v : Int)
    (hix : ¬c < u.vec.length) (hv : hmGet u.map c = some v) :
    u.insert c n =
      ({ vec := u.vec, map := if n = 0 then hmRemove u.map c else hmSet u.map c n,
         len := if n = 0 then u.len - 1 else u.len,
         total := u.total + (n - v) }, some v) := by
  simp only [UnicodePointMap.insert, char_to_valid_index]
  rw [if_neg hix]
  simp only [hv]

theorem upm_insert_sparse_absent_zero (u : UnicodePointMap) (c : Nat)
    (hix : ¬c < u.vec.length) (hv : hmGet u.map c = none) :
    u.insert c 0 =
      ({ vec := u.vec, map := u.map, len := u.len, total := u.total + 0 }, none) := by
  simp only [UnicodePointMap.insert, char_to_valid_index]
  rw [if_neg hix]
  simp [hv]

theorem upm_insert_sparse_absent_nz (u : UnicodePointMap) (c : Nat) (n : Int)
    (hix : ¬c < u.vec.length) (hv : hmGet u.map c = none) (hn : n ≠ 0) :
    u.insert c n =
      ({ vec := u.vec, map := hmSet u.map c n, len := u.len + 1,
         total := u.total + n }, none) := by
  simp only [UnicodePointMap.insert, char_to_valid_index]
  rw [if_neg hix]
  simp only [hv]
  rw [if_pos hn]

theorem upm_push_n_zero (u : UnicodePointMap) (c : Nat) : u.push_n c 0 = u := by
  simp [UnicodePointMap.push_n]

theorem upm_push_n_dense (u : UnicodePointMap) (c : Nat) (n : Int) (hn : n ≠ 0)
    (hix : c < u.vec.length) :
    u.push_n c n =
      { vec := u.vec.set c (u.vec.getD c 0 + n), map := u.map,
        len := if u.vec.getD c 0 = 0 then (if u.vec.getD c 0 + n = 0 then u.len else u.len + 1)
               else if u.vec.getD c 0 + n = 0 then u.len - 1 else u.len,
        total := u.total + n } := by
  simp only [UnicodePointMap.push_n, char_to_valid_index]
  rw [if_pos hn, if_pos hix]

theorem upm_push_n_sparse_absent (u : UnicodePointMap) (c : Nat) (n : Int) (hn : n ≠ 0)
    (hix : ¬c < u.vec.length) (hv : hmGet u.map c = none) :
    u.push_n c n =
      { vec := u.vec, map := hmSet u.map c n, len := u.len + 1, total := u.total + n } := by
  simp only [UnicodePointMap.push_n, char_to_valid_index]
  rw [if_pos hn, if_neg hix]
  simp only [hv]

theorem upm_push_n_sparse_cancel (u : UnicodePointMap) (c : Nat) (n v : Int) (hn : n ≠ 0)
    (hix : ¬c < u.vec.length) (hv : hmGet u.map c = some v) (hz : v + n = 0) :
    u.push_n c n =
      { vec := u.vec, map := hmRemove u.map c, len := u.len - 1, total := u.total + n } := by
  simp only [UnicodePointMap.push_n, char_to_valid_index]
  rw [if_pos hn, if_neg hix]
  simp only [hv]
  rw [if_pos hz]

theorem upm_push_n_sparse_keep (u : UnicodePointMap) (c : Nat) (n v : Int) (hn : n ≠ 0)
    (hix : ¬c < u.vec.length) (hv : hmGet u.map c = some v) (hz : v + n ≠ 0) :
    u.push_n c n =
      { vec := u.vec, map := hmSet u.map c (v + n), len := u.len, total := u.total + n } := by
  simp only [UnicodePointMap.push_n, char_to_valid_index]
  rw [if_pos hn, if_neg hix]
  simp only [hv]
  rw [if_neg hz]

/-- Claim C5: for both maps, `insert(k, 0)` on an absent key leaves the
map unchanged and returns `none`; `insert(k, 0)` on a key present with
count C removes the record, returns C, and reduces total by C; and in
general `insert(k, c)` adjusts total by `c - previous` where previous is
0 for an absent key. -/
theorem insert_zero_semantics :
    (∀ (K : Type) [DecidableEq K] (m : FrequencyMap K) (k : K),
        hmGet m.map k = none → m.insert k 0 = (m, none)) ∧
    (∀ (K : Type) [DecidableEq K] (m : FrequencyMap K) (k : K) (C : Int),
        (m.map.map Prod.fst).Nodup → hmGet m.map k = some C →
        (m.insert k 0).2 = some C ∧ (m.insert k 0).1.contains_key k = false ∧
          (m.insert k 0).1.total = m.total - C) ∧
    (∀ (K : Type) [DecidableEq K] (m : FrequencyMap K) (k : K) (c : Int),
        (m.insert k c).1.total = m.total + (c - m.get k)) ∧
    (∀ (u : UnicodePointMap) (c : Nat),
        u.contains_key c = false → u.insert c 0 = (u, none)) ∧
    (∀ (u : UnicodePointMap) (c : Nat), (u.map.map Prod.fst).Nodup →
        u.contains_key c = true →
        (u.insert c 0).2 = some (u.get c) ∧ (u.insert c 0).1.contains_key c = false ∧
          (u.insert c 0).1.total = u.total - u.get c) ∧
    (∀ (u : UnicodePointMap) (c : Nat) (n : Int),
        (u.insert c n).1.total = u.total + (n - u.get c)) := by
  refine ⟨?_, ?_, ?_, ?_, ?_, ?_⟩
  · intro K _ m k h
    exact fm_insert_absent_zero m k h
  · intro K _ m k C hnd hC
    rw [fm_insert_present m k 0 C hC]
    refine ⟨rfl, ?_, ?_⟩
    · simp [FrequencyMap.contains_key, hmGet_hmRemove_self m.map k hnd]
    · show m.total - C + 0 = m.total - C
      omega
  · intro K _ m k c
    cases hC : hmGet m.map k with
    | some v =>
        rw [fm_insert_present m k c v hC]
        simp only [FrequencyMap.get, hC, Option.getD_some]
        show m.total - v + c = m.total + (c - v)
        omega
    | none =>
        by_cases hc : c = 0
        · subst hc
          rw [fm_insert_absent_zero m k hC]
          simp [FrequencyMap.get, hC]
        · rw [fm_insert_absent_nz m k c hC hc]
          simp only [FrequencyMap.get, hC, Option.getD_none]
          show m.total + c = m.total + (c - 0)
          omega
  · intro u c h
    by_cases hix : c < u.vec.length
    · have h0 : u.vec.getD c 0 = 0 := by
        rw [upm_contains_dense u c hix] at h
        simpa using h
      rw [upm_insert_dense u c 0 hix, if_pos h0, set_zero_of_getD_zero u.vec c h0, h0]
      obtain ⟨vec, mp, ln, tt⟩ := u
      simp
    · have h0 : hmGet u.map c = none := by
        cases hg : hmGet u.map c with
        | none => rfl
        | some v => rw [upm_contains_sparse u c hix, hg] at h; simp at h
      rw [upm_insert_sparse_absent_zero u c hix h0]
      obtain ⟨vec, mp, ln, tt⟩ := u
      simp
  · intro u c hnd h
    by_cases hix : c < u.vec.length
    · have h0 : u.vec.getD c 0 ≠ 0 := by
        rw [upm_contains_dense u c hix] at h
        simpa using h
      rw [upm_insert_dense u c 0 hix, if_neg h0]
      refine ⟨by rw [upm_get_dense u c hix]; exact if_neg h0, ?_, ?_⟩
      · rw [upm_contains_dense _ c (by simpa using hix), getD_set_self u.vec c 0 hix]
        decide
      · rw [upm_get_dense u c hix]
        show u.total + (0 - u.vec.getD c 0) = u.total - u.vec.getD c 0
        omega
    · have h0 : ∃ v, hmGet u.map c = some v := by
        rw [upm_contains_sparse u c hix] at h
        exact Option.isSome_iff_exists.mp h
      obtain ⟨v, hv⟩ := h0
      rw [upm_insert_sparse_present u c 0 v hix hv, if_pos rfl]
      refine ⟨by simp [upm_get_sparse u c hix, hv], ?_, ?_⟩
      · simp only [UnicodePointMap.contains_key, char_to_valid_index]
        rw [if_neg hix, hmGet_hmRemove_self u.map c hnd]
        rfl
      · rw [upm_get_sparse u c hix, hv]
        show u.total + (0 - v) = u.total - (some v).getD 0
        simp only [Option.getD_some]
        omega
  · intro u c n
    by_cases hix : c < u.vec.length
    · rw [upm_insert_dense u c n hix, upm_get_dense u c hix]
    · cases hv : hmGet u.map c with
      | some v =>
          rw [upm_insert_sparse_present u c n v hix hv, upm_get_sparse u c hix, hv]
          show u.total + (n - v) = u.total + (n - (some v).getD 0)
          simp
      | none =>
          by_cases hn : n = 0
          · subst hn
            rw [upm_insert_sparse_absent_zero u c hix hv, upm_get_sparse u c hix, hv]
            show u.total + 0 = u.total + (0 - (Option.getD none 0))
            simp
          · rw [upm_insert_sparse_absent_nz u c n hix hv hn, upm_get_sparse u c hix, hv]
            show u.total + n = u.total + (n - (Option.getD none 0))
            simp

/-- Witness for C5: every hypothesis-bearing conjunct discharged at a
concrete input. -/
theorem insert_zero_semantics_witness :
    ((FrequencyMap.new Nat).insert 3 0 = (FrequencyMap.new Nat, none)) ∧
    (((((FrequencyMap.new Nat).insert 3 7).1.insert 3 0).2 = some 7) ∧
      ((((FrequencyMap.new Nat).insert 3 7).1.insert 3 0).1.contains_key 3 = false) ∧
      ((((FrequencyMap.new Nat).insert 3 7).1.insert 3 0).1.total =
        ((FrequencyMap.new Nat).insert 3 7).1.total - 7)) ∧
    ((UnicodePointMap.new 4).insert 2 0 = (UnicodePointMap.new 4, none)) ∧
    (((((UnicodePointMap.new 4).insert 2 7).1.insert 2 0).2 =
        some (((UnicodePointMap.new 4).insert 2 7).1.get 2)) ∧
      ((((UnicodePointMap.new 4).insert 2 7).1.insert 2 0).1.contains_key 2 = false) ∧
      ((((UnicodePointMap.new 4).insert 2 7).1.insert 2 0).1.total =
        ((UnicodePointMap.new 4).insert 2 7).1.total -
          ((UnicodePointMap.new 4).insert 2 7).1.get 2)) :=
  ⟨insert_zero_semantics.1 Nat (FrequencyMap.new Nat) 3 rfl,
    insert_zero_semantics.2.1 Nat ((FrequencyMap.new Nat).insert 3 7).1 3 7
      (by decide) (by decide),
    insert_zero_semantics.2.2.2.1 (UnicodePointMap.new 4) 2 (by decide),
    insert_zero_semantics.2.2.2.2.1 ((UnicodePointMap.new 4).insert 2 7).1 2
      (by decide) (by decide)⟩

/-- Claim C6: for both maps and a key not currently stored, `push_n(k, 5)`
then `push_n(k, -5)` leaves `contains_key(k) == false`, `get(k) == 0`
and `total()` unchanged; and `push_n(k, 0)` is a complete no-op. -/
theorem push_n_cancellation :
    (∀ (K : Type) [DecidableEq K] (m : FrequencyMap K) (k : K),
        hmGet m.map k = none →
        ((m.push_n k 5).push_n k (-5)).contains_key k = false ∧
        ((m.push_n k 5).push_n k (-5)).get k = 0 ∧
        ((m.push_n k 5).push_n k (-5)).total = m.total) ∧
    (∀ (K : Type) [DecidableEq K] (m : FrequencyMap K) (k : K), m.push_n k 0 = m) ∧
    (∀ (u : UnicodePointMap) (c : Nat),
        u.contains_key c = false →
        ((u.push_n c 5).push_n c (-5)).contains_key c = false ∧
        ((u.push_n c 5).push_n c (-5)).get c = 0 ∧
        ((u.push_n c 5).push_n c (-5)).total = u.total) ∧
    (∀ (u : UnicodePointMap) (c : Nat), u.push_n c 0 = u) := by
  refine ⟨?_, ?_, ?_, ?_⟩
  · intro K _ m k h
    rw [fm_push_n_absent m k 5 h (by decide)]
    have hg1 : hmGet (hmSet m.map k 5) k = some 5 := hmGet_hmSet_self m.map k 5
    rw [fm_push_n_present_cancel { map := hmSet m.map k 5, total := m.total + 5 } k (-5) 5 hg1 (by decide) (by decide)]
    rw [hmSet_of_none m.map k 5 h, hmRemove_append_single m.map k 5 h]
    refine ⟨?_, ?_, ?_⟩
    · simp [FrequencyMap.contains_key, h]
    · simp [FrequencyMap.get, h]
    · show m.total + 5 + (-5) = m.total
      omega
  · intro K _ m k
    obtain ⟨mp, tt⟩ := m
    rw [fm_push_n_zero]
    simp
  · intro u c h
    by_cases hix : c < u.vec.length
    · have h0 : u.vec.getD c 0 = 0 := by
        rw [upm_contains_dense u c hix] at h
        simpa using h
      have hd1 : u.push_n c 5 =
          { vec := u.vec.set c 5, map := u.map, len := u.len + 1, total := u.total + 5 } := by
        rw [upm_push_n_dense u c 5 (by decide) hix, h0]
        norm_num
      have hix1 : c < (u.vec.set c 5).length := by simpa using hix
      have hg1 : (u.vec.set c 5).getD c 0 = 5 := getD_set_self u.vec c 5 hix
      have hd2 : ({ vec := u.vec.set c 5, map := u.map, len := u.len + 1, total := u.total + 5 } : UnicodePointMap).push_n c (-5) =
          { vec := (u.vec.set c 5).set c 0, map := u.map, len := u.len, total := u.total + 5 + (-5) } := by
        rw [upm_push_n_dense _ c (-5) (by decide) hix1]
        simp only [hg1]
        norm_num
      rw [hd1, hd2]
      have hix2 : c < ((u.vec.set c 5).set c 0).length := by simpa using hix
      refine ⟨?_, ?_, ?_⟩
      · rw [upm_contains_dense _ c hix2,
          getD_set_self (u.vec.set c 5) c 0 (by simpa using hix)]
        decide
      · rw [upm_get_dense _ c hix2]
        exact getD_set_self (u.vec.set c 5) c 0 (by simpa using hix)
      · show u.total + 5 + (-5) = u.total
        omega
    · have h0 : hmGet u.map c = none := by
        cases hg : hmGet u.map c with
        | none => rfl
        | some v => rw [upm_contains_sparse u c hix, hg] at h; simp at h
      rw [upm_push_n_sparse_absent u c 5 (by decide) hix h0]
      have hg1 : hmGet (hmSet u.map c 5) c = some 5 := hmGet_hmSet_self u.map c 5
      rw [upm_push_n_sparse_cancel { vec := u.vec, map := hmSet u.map c 5, len := u.len + 1, total := u.total + 5 } c (-5) 5 (by decide) hix hg1 (by decide)]
      rw [hmSet_of_none u.map c 5 h0, hmRemove_append_single u.map c 5 h0]
      refine ⟨?_, ?_, ?_⟩
      · simp only [UnicodePointMap.contains_key, char_to_valid_index]
        rw [if_neg hix, h0]
        rfl
      · simp only [UnicodePointMap.get, char_to_valid_index]
        rw [if_neg hix, h0]
        rfl
      · show u.total + 5 + (-5) = u.total
        omega
  · intro u c
    exact upm_push_n_zero u c

/-- Witness for C6: hypothesis-bearing conjuncts discharged at concrete
inputs. -/
theorem push_n_cancellation_witness :
    ((((FrequencyMap.new Nat).push_n 3 5).push_n 3 (-5)).contains_key 3 = false ∧
      (((FrequencyMap.new Nat).push_n 3 5).push_n 3 (-5)).get 3 = 0 ∧
      (((FrequencyMap.new Nat).push_n 3 5).push_n 3 (-5)).total =
        (FrequencyMap.new Nat).total) ∧
    ((((UnicodePointMap.new 4).push_n 2 5).push_n 2 (-5)).contains_key 2 = false ∧
      (((UnicodePointMap.new 4).push_n 2 5).push_n 2 (-5)).get 2 = 0 ∧
      (((UnicodePointMap.new 4).push_n 2 5).push_n 2 (-5)).total =
        (UnicodePointMap.new 4).total) :=
  ⟨push_n_cancellation.1 Nat (FrequencyMap.new Nat) 3 rfl,
    push_n_cancellation.2.2.1 (UnicodePointMap.new 4) 2 (by decide)⟩

/-! ## push_n interaction lemmas (groundwork for append) -/

theorem fm_push_n_hmGet_ne {K : Type} [DecidableEq K] (m : FrequencyMap K) (k0 : K) (n : Int)
    (k : K) (hk : k ≠ k0) : hmGet (m.push_n k0 n).map k = hmGet m.map k := by
  by_cases hn : n = 0
  · subst hn
    rw [fm_push_n_zero]
  · cases hv : hmGet m.map k0 with
    | some v =>
        by_cases hz : v + n = 0
        · rw [fm_push_n_present_cancel m k0 n v hv hn hz]
          exact hmGet_hmRemove_ne m.map k0 k hk
        · rw [fm_push_n_present_keep m k0 n v hv hn hz]
          exact hmGet_hmSet_ne m.map k0 k (v + n) hk
    | none =>
        rw [fm_push_n_absent m k0 n hv hn]
        exact hmGet_hmSet_ne m.map k0 k n hk

theorem fm_get_eq_some_of_ne_zero {K : Type} [DecidableEq K] (m : FrequencyMap K) (k : K)
    (h : m.get k ≠ 0) : hmGet m.map k = some (m.get k) := by
  cases hv : hmGet m.map k with
  | some v => simp [FrequencyMap.get, hv]
  | none => exact absurd (by simp [FrequencyMap.get, hv]) h

theorem fm_push_n_get {K : Type} [DecidableEq K] (m : FrequencyMap K) (k0 : K) (n : Int)
    (k : K) (hnd : (m.map.map Prod.fst).Nodup) :
    (m.push_n k0 n).get k = m.get k + (if k0 = k then n else 0) := by
  by_cases hk : k0 = k
  · subst hk
    rw [if_pos rfl]
    by_cases hn : n = 0
    · subst hn
      rw [fm_push_n_zero]
      show m.get k0 = m.get k0 + 0
      omega
    · cases hv : hmGet m.map k0 with
      | some v =>
          by_cases hz : v + n = 0
          · rw [fm_push_n_present_cancel m k0 n v hv hn hz]
            have h1 : hmGet (hmRemove m.map k0) k0 = none := hmGet_hmRemove_self m.map k0 hnd
            simp only [FrequencyMap.get, h1, Option.getD_none, hv, Option.getD_some]
            omega
          · rw [fm_push_n_present_keep m k0 n v hv hn hz]
            simp only [FrequencyMap.get, hmGet_hmSet_self m.map k0 (v + n),
              Option.getD_some, hv]
      | none =>
          rw [fm_push_n_absent m k0 n hv hn]
          simp only [FrequencyMap.get, hmGet_hmSet_self m.map k0 n, Option.getD_some, hv,
            Option.getD_none]
          omega
  · rw [if_neg hk]
    have h1 := fm_push_n_hmGet_ne m k0 n k (fun hh => hk hh.symm)
    simp only [FrequencyMap.get, h1]
    omega

theorem fm_push_n_nodup {K : Type} [DecidableEq K] (m : FrequencyMap K) (k0 : K) (n : Int)
    (hnd : (m.map.map Prod.fst).Nodup) : ((m.push_n k0 n).map.map Prod.fst).Nodup := by
  by_cases hn : n = 0
  · subst hn
    rw [fm_push_n_zero]
    exact hnd
  · cases hv : hmGet m.map k0 with
    | some v =>
        by_cases hz : v + n = 0
        · rw [fm_push_n_present_cancel m k0 n v hv hn hz]
          exact nodup_hmRemove m.map k0 hnd
        · rw [fm_push_n_present_keep m k0 n v hv hn hz]
          exact nodup_hmSet m.map k0 (v + n) hnd
    | none =>
        rw [fm_push_n_absent m k0 n hv hn]
        exact nodup_hmSet m.map k0 n hnd

theorem fm_push_n_contains_ne {K : Type} [DecidableEq K] (m : FrequencyMap K) (k0 : K)
    (n : Int) (k : K) (hk : k ≠ k0) :
    (m.push_n k0 n).contains_key k = m.contains_key k := by
  simp only [FrequencyMap.contains_key, fm_push_n_hmGet_ne m k0 n k hk]

theorem fm_push_n_cancel_contains {K : Type} [DecidableEq K] (m : FrequencyMap K) (k0 : K)
    (n v : Int) (hnd : (m.map.map Prod.fst).Nodup) (hv : hmGet m.map k0 = some v)
    (hn : n ≠ 0) (hz : v + n = 0) : (m.push_n k0 n).contains_key k0 = false := by
  rw [fm_push_n_present_cancel m k0 n v hv hn hz]
  simp [FrequencyMap.contains_key, hmGet_hmRemove_self m.map k0 hnd]

theorem hmGet_eq_none_of_not_mem {K : Type} [DecidableEq K] (l : List (K × Int)) (k : K)
    (h : k ∉ l.map Prod.fst) : hmGet l k = none := by
  rw [hmGet_eq_none_iff]
  intro p hp hpk
  exact h (hpk ▸ List.mem_map_of_mem Prod.fst hp)

/-! ## Folding push_n over a list of records (the compiled body of append) -/

theorem fm_foldl_push_n_nodup {K : Type} [DecidableEq K] (l : List (K × Int))
    (a : FrequencyMap K) (ha : (a.map.map Prod.fst).Nodup) :
    (((l.foldl (fun acc p => acc.push_n p.1 p.2) a).map).map Prod.fst).Nodup := by
  induction l generalizing a with
  | nil => exact ha
  | cons p rest ih =>
      rw [List.foldl_cons]
      exact ih (a.push_n p.1 p.2) (fm_push_n_nodup a p.1 p.2 ha)

theorem fm_foldl_push_n_contains_ne {K : Type} [DecidableEq K] (l : List (K × Int))
    (a : FrequencyMap K) (k : K) (h : k ∉ l.map Prod.fst) :
    (l.foldl (fun acc p => acc.push_n p.1 p.2) a).contains_key k = a.contains_key k := by
  induction l generalizing a with
  | nil => rfl
  | cons p rest ih =>
      simp only [List.map_cons, List.mem_cons] at h
      push_neg at h
      rw [List.foldl_cons, ih (a.push_n p.1 p.2) h.2,
        fm_push_n_contains_ne a p.1 p.2 k h.1]

theorem fm_foldl_push_n_get {K : Type} [DecidableEq K] (l : List (K × Int))
    (a : FrequencyMap K) (k : K) (ha : (a.map.map Prod.fst).Nodup)
    (hl : (l.map Prod.fst).Nodup) :
    (l.foldl (fun acc p => acc.push_n p.1 p.2) a).get k = a.get k + (hmGet l k).getD 0 := by
  induction l generalizing a with
  | nil => simp [hmGet]
  | cons p rest ih =>
      simp only [List.map_cons, List.nodup_cons] at hl
      rw [List.foldl_cons, ih (a.push_n p.1 p.2) (fm_push_n_nodup a p.1 p.2 ha) hl.2,
        fm_push_n_get a p.1 p.2 k ha]
      by_cases hk : p.1 = k
      · have hnone : hmGet rest k = none :=
          hmGet_eq_none_of_not_mem rest k (fun hh => hl.1 (hk ▸ hh))
        rw [hmGet, if_pos hk, hnone, if_pos hk]
        simp only [Option.getD_none, Option.getD_some]
        omega
      · rw [hmGet, if_neg hk, if_neg hk]
        omega

theorem fm_foldl_push_n_cancel {K : Type} [DecidableEq K] (l : List (K × Int))
    (a : FrequencyMap K) (k : K) (ha : (a.map.map Prod.fst).Nodup)
    (hl : (l.map Prod.fst).Nodup) (hnz : (hmGet l k).getD 0 ≠ 0)
    (hz : a.get k + (hmGet l k).getD 0 = 0) :
    (l.foldl (fun acc p => acc.push_n p.1 p.2) a).contains_key k = false := by
  induction l generalizing a with
  | nil => exact absurd (by simp [hmGet]) hnz
  | cons p rest ih =>
      simp only [List.map_cons, List.nodup_cons] at hl
      rw [List.foldl_cons]
      by_cases hk : p.1 = k
      · have hnone : hmGet rest k = none :=
          hmGet_eq_none_of_not_mem rest k (fun hh => hl.1 (hk ▸ hh))
        rw [hmGet, if_pos hk] at hnz hz
        simp only [Option.getD_some] at hnz hz
        have hget : a.get k ≠ 0 := by omega
        have hv : hmGet a.map k = some (a.get k) := fm_get_eq_some_of_ne_zero a k hget
        have hc : (a.push_n k p.2).contains_key k = false :=
          fm_push_n_cancel_contains a k p.2 (a.get k) ha hv hnz (by omega)
        have hrest : k ∉ rest.map Prod.fst := fun hh => hl.1 (hk ▸ hh)
        have := fm_foldl_push_n_contains_ne rest (a.push_n k p.2) k hrest
        rw [← hk] at this hc ⊢
        rw [this, hc]
      · rw [hmGet, if_neg hk] at hnz hz
        have hget : (a.push_n p.1 p.2).get k = a.get k := by
          rw [fm_push_n_get a p.1 p.2 k ha, if_neg hk]
          omega
        exact ih (a.push_n p.1 p.2) (fm_push_n_nodup a p.1 p.2 ha) hl.2 hnz
          (by rwa [hget])

/-- Claim C7: after `a.append(&mut b)`, `b` is empty (`is_empty()`,
`len() == 0`, `total() == 0`), and for every key `a`'s resulting count
is the `push_n`-combination of `a`'s and `b`'s pre-append counts, a
record being removed from `a` when a key held by `b` cancels to a
combined count of 0. -/
theorem append_drains_source :
    ∀ (K : Type) [DecidableEq K] (a b : FrequencyMap K),
      (a.map.map Prod.fst).Nodup → (b.map.map Prod.fst).Nodup →
      (a.append b).2.is_empty = true ∧ (a.append b).2.len = 0 ∧ (a.append b).2.total = 0 ∧
      (∀ k, (a.append b).1.get k = a.get k + b.get k) ∧
      (∀ k, b.get k ≠ 0 → a.get k + b.get k = 0 →
        (a.append b).1.contains_key k = false) := by
  intro K _ a b ha hb
  refine ⟨rfl, rfl, rfl, ?_, ?_⟩
  · intro k
    show (b.map.foldl (fun acc p => acc.push_n p.1 p.2) a).get k = a.get k + b.get k
    rw [fm_foldl_push_n_get b.map a k ha hb]
    rfl
  · intro k hnz hz
    show (b.map.foldl (fun acc p => acc.push_n p.1 p.2) a).contains_key k = false
    exact fm_foldl_push_n_cancel b.map a k ha hb hnz hz

/-- Witness for C7: the hypotheses discharged on concrete maps in which
key 2 cancels to zero. -/
theorem append_drains_source_witness :
    (((((FrequencyMap.new Nat).push_n 1 2).push_n 2 3).append
        (((FrequencyMap.new Nat).push_n 2 (-3)).push_n 5 7)).2.is_empty = true) ∧
    (((((FrequencyMap.new Nat).push_n 1 2).push_n 2 3).append
        (((FrequencyMap.new Nat).push_n 2 (-3)).push_n 5 7)).2.len = 0) ∧
    (((((FrequencyMap.new Nat).push_n 1 2).push_n 2 3).append
        (((FrequencyMap.new Nat).push_n 2 (-3)).push_n 5 7)).2.total = 0) ∧
    (((((FrequencyMap.new Nat).push_n 1 2).push_n 2 3).append
        (((FrequencyMap.new Nat).push_n 2 (-3)).push_n 5 7)).1.get 2 =
      (((FrequencyMap.new Nat).push_n 1 2).push_n 2 3).get 2 +
        (((FrequencyMap.new Nat).push_n 2 (-3)).push_n 5 7).get 2) ∧
    (((((FrequencyMap.new Nat).push_n 1 2).push_n 2 3).append
        (((FrequencyMap.new Nat).push_n 2 (-3)).push_n 5 7)).1.contains_key 2 = false) := by
  have H := append_drains_source Nat (((FrequencyMap.new Nat).push_n 1 2).push_n 2 3)
    (((FrequencyMap.new Nat).push_n 2 (-3)).push_n 5 7) (by decide) (by decide)
  exact ⟨H.1, H.2.1, H.2.2.1, H.2.2.2.1 2, H.2.2.2.2 2 (by decide) (by decide)⟩

/-! ## Iterator lemmas -/

theorem findNz_some_spec (vec : List Int) (ix j : Nat) (hf : findNz vec ix = some j) :
    ix ≤ j ∧ j < vec.length ∧ vec.getD j 0 ≠ 0 := by
  have H : ∀ (n ix j : Nat), vec.length - ix ≤ n → findNz vec ix = some j →
      ix ≤ j ∧ j < vec.length ∧ vec.getD j 0 ≠ 0 := by
    intro n
    induction n with
    | zero =>
        intro ix j hle hf
        unfold findNz at hf
        rw [dif_neg (by omega)] at hf
        exact absurd hf (by simp)
    | succ n ih =>
        intro ix j hle hf
        unfold findNz at hf
        by_cases hlt : ix < vec.length
        · rw [dif_pos hlt] at hf
          by_cases hz : vec.getD ix 0 ≠ 0
          · rw [if_pos hz] at hf
            injection hf with hf
            subst hf
            exact ⟨Nat.le_refl ix, hlt, hz⟩
          · rw [if_neg hz] at hf
            have hr := ih (ix + 1) j (by omega) hf
            exact ⟨by omega, hr.2.1, hr.2.2⟩
        · rw [dif_neg hlt] at hf
          exact absurd hf (by simp)
  exact H (vec.length - ix) ix j (Nat.le_refl _) hf

theorem densePairsFrom_of_findNz_none (vec : List Int) (ix : Nat)
    (hf : findNz vec ix = none) : densePairsFrom vec ix = [] := by
  have H : ∀ (n ix : Nat), vec.length - ix ≤ n → findNz vec ix = none →
      densePairsFrom vec ix = [] := by
    intro n
    induction n with
    | zero =>
        intro ix hle hf
        rw [densePairsFrom.eq_def, dif_neg (by omega)]
    | succ n ih =>
        intro ix hle hf
        unfold findNz at hf
        by_cases hlt : ix < vec.length
        · rw [dif_pos hlt] at hf
          by_cases hz : vec.getD ix 0 ≠ 0
          · rw [if_pos hz] at hf
            exact absurd hf (by simp)
          · rw [if_neg hz] at hf
            rw [densePairsFrom.eq_def, dif_pos hlt, if_neg hz]
            exact ih (ix + 1) (by omega) hf
        · rw [densePairsFrom.eq_def, dif_neg hlt]
  exact H (vec.length - ix) ix (Nat.le_refl _) hf

theorem densePairsFrom_of_findNz_some (vec : List Int) (ix j : Nat)
    (hf : findNz vec ix = some j) :
    densePairsFrom vec ix = (j, vec.getD j 0) :: densePairsFrom vec (j + 1) := by
  have H : ∀ (n ix j : Nat), vec.length - ix ≤ n → findNz vec ix = some j →
      densePairsFrom vec ix = (j, vec.getD j 0) :: densePairsFrom vec (j + 1) := by
    intro n
    induction n with
    | zero =>
        intro ix j hle hf
        unfold findNz at hf
        rw [dif_neg (by omega)] at hf
        exact absurd hf (by simp)
    | succ n ih =>
        intro ix j hle hf
        unfold findNz at hf
        by_cases hlt : ix < vec.length
        · rw [dif_pos hlt] at hf
          by_cases hz : vec.getD ix 0 ≠ 0
          · rw [if_pos hz] at hf
            injection hf with hf
            subst hf
            rw [densePairsFrom.eq_def, dif_pos hlt, if_pos hz]
          · rw [if_neg hz] at hf
            rw [densePairsFrom.eq_def, dif_pos hlt, if_neg hz]
            exact ih (ix + 1) j (by omega) hf
        · rw [dif_neg hlt] at hf
          exact absurd hf (by simp)
  exact H (vec.length - ix) ix j (Nat.le_refl _) hf

theorem toListFuel_succ_some (n : Nat) (it : UPMIter) (p : Nat × Int) (it1 : UPMIter)
    (h : UPMIter.next it = (some p, it1)) :
    toListFuel (n + 1) it = p :: toListFuel n it1 := by
  simp only [toListFuel, h]

theorem toListFuel_succ_none (n : Nat) (it : UPMIter) (it1 : UPMIter)
    (h : UPMIter.next it = (none, it1)) : toListFuel (n + 1) it = [] := by
  simp only [toListFuel, h]

theorem toListFuel_map_phase (u : UnicodePointMap) :
    ∀ (n : Nat) (l : List (Nat × Int)), l.length < n →
      toListFuel n { upm := u, vec_index := none, map_iter := some l } = l := by
  intro n
  induction n with
  | zero => intro l h; simp at h
  | succ n ih =>
      intro l h
      cases l with
      | nil =>
          exact toListFuel_succ_none n _ _ rfl
      | cons p rest =>
          rw [toListFuel_succ_some n
            { upm := u, vec_index := none, map_iter := some (p :: rest) } p
            { upm := u, vec_index := none, map_iter := some rest } rfl]
          rw [ih rest (by simpa using h)]

theorem toListFuel_vec_phase (u : UnicodePointMap) :
    ∀ (n ix : Nat), u.vec.length + 1 - ix + u.map.length + 1 ≤ n →
      toListFuel n { upm := u, vec_index := some ix, map_iter := none } =
        densePairsFrom u.vec ix ++ u.map := by
  intro n
  induction n with
  | zero => intro ix h; omega
  | succ n ih =>
      intro ix h
      cases hf : findNz u.vec ix with
      | some j =>
          have hspec := findNz_some_spec u.vec ix j hf
          have hnext : UPMIter.next { upm := u, vec_index := some ix, map_iter := none } =
              (some (j, u.vec.getD j 0),
                { upm := u, vec_index := some (j + 1), map_iter := none }) := by
            simp only [UPMIter.next, hf]
          rw [toListFuel_succ_some n _ _ _ hnext]
          rw [ih (j + 1) (by omega)]
          rw [densePairsFrom_of_findNz_some u.vec ix j hf]
          rfl
      | none =>
          rw [densePairsFrom_of_findNz_none u.vec ix hf]
          cases hm : u.map with
          | nil =>
              have hnext : UPMIter.next { upm := u, vec_index := some ix, map_iter := none } =
                  (none, { upm := u, vec_index := none, map_iter := none }) := by
                simp only [UPMIter.next, hf, hm]
              rw [toListFuel_succ_none n _ _ hnext]
              rfl
          | cons p rest =>
              have hnext : UPMIter.next { upm := u, vec_index := some ix, map_iter := none } =
                  (some p, { upm := u, vec_index := none, map_iter := some rest }) := by
                simp only [UPMIter.next, hf, hm]
              rw [toListFuel_succ_some n _ _ _ hnext]
              rw [toListFuel_map_phase u n rest (by
                have : u.map.length = rest.length + 1 := by rw [hm]; rfl
                omega)]
              rfl

theorem upm_next_fused (it : UPMIter) (h : (UPMIter.next it).1 = none) :
    UPMIter.next (UPMIter.next it).2 = (none, (UPMIter.next it).2) := by
  obtain ⟨u, vi, mi⟩ := it
  cases vi with
  | some ix =>
      cases hf : findNz u.vec ix with
      | some j => simp [UPMIter.next, hf] at h
      | none =>
          cases hm : u.map with
          | nil => simp [UPMIter.next, hf, hm]
          | cons p rest => simp [UPMIter.next, hf, hm] at h
  | none =>
      cases mi with
      | none => simp [UPMIter.next]
      | some l =>
          cases l with
          | nil => simp [UPMIter.next]
          | cons p rest => simp [UPMIter.next] at h

theorem mem_densePairsFrom (vec : List Int) (ix : Nat) (p : Nat × Int) :
    p ∈ densePairsFrom vec ix ↔
      ix ≤ p.1 ∧ p.1 < vec.length ∧ vec.getD p.1 0 = p.2 ∧ p.2 ≠ 0 := by
  have H : ∀ (n ix : Nat) (p1 : Nat) (p2 : Int), vec.length - ix ≤ n →
      ((p1, p2) ∈ densePairsFrom vec ix ↔
        ix ≤ p1 ∧ p1 < vec.length ∧ vec.getD p1 0 = p2 ∧ p2 ≠ 0) := by
    intro n
    induction n with
    | zero =>
        intro ix p1 p2 hle
        rw [densePairsFrom.eq_def, dif_neg (by omega)]
        simp only [List.not_mem_nil, false_iff]
        rintro ⟨h1, h2, -, -⟩
        omega
    | succ n ih =>
        intro ix p1 p2 hle
        by_cases hlt : ix < vec.length
        · rw [densePairsFrom.eq_def, dif_pos hlt]
          by_cases hz : vec.getD ix 0 ≠ 0
          · rw [if_pos hz]
            rw [List.mem_cons, ih (ix + 1) p1 p2 (by omega)]
            constructor
            · rintro (heq | ⟨h1, h2, h3, h4⟩)
              · rw [Prod.mk.injEq] at heq
                obtain ⟨he1, he2⟩ := heq
                subst he1
                exact ⟨Nat.le_refl _, hlt, he2.symm, by rwa [← he2] at hz⟩
              · exact ⟨by omega, h2, h3, h4⟩
            · rintro ⟨h1, h2, h3, h4⟩
              by_cases hpx : p1 = ix
              · left
                subst hpx
                rw [Prod.mk.injEq]
                exact ⟨rfl, h3.symm⟩
              · right
                exact ⟨by omega, h2, h3, h4⟩
          · rw [if_neg hz]
            rw [ih (ix + 1) p1 p2 (by omega)]
            have hz0 : vec.getD ix 0 = 0 := not_not.mp hz
            constructor
            · rintro ⟨h1, h2, h3, h4⟩
              exact ⟨by omega, h2, h3, h4⟩
            · rintro ⟨h1, h2, h3, h4⟩
              have hne : p1 ≠ ix := fun hh => h4 (by rw [← h3, hh, hz0])
              exact ⟨by omega, h2, h3, h4⟩
        · rw [densePairsFrom.eq_def, dif_neg hlt]
          simp only [List.not_mem_nil, false_iff]
          rintro ⟨h1, h2, -, -⟩
          omega
  obtain ⟨p1, p2⟩ := p
  exact H (vec.length - ix) ix p1 p2 (Nat.le_refl _)

theorem densePairsFrom_pairwise (vec : List Int) (ix : Nat) :
    (densePairsFrom vec ix).Pairwise (fun p q => p.1 < q.1) := by
  have H : ∀ (n ix : Nat), vec.length - ix ≤ n →
      (densePairsFrom vec ix).Pairwise (fun p q => p.1 < q.1) := by
    intro n
    induction n with
    | zero =>
        intro ix hle
        rw [densePairsFrom.eq_def, dif_neg (by omega)]
        exact List.Pairwise.nil
    | succ n ih =>
        intro ix hle
        by_cases hlt : ix < vec.length
        · rw [densePairsFrom.eq_def, dif_pos hlt]
          by_cases hz : vec.getD ix 0 ≠ 0
          · rw [if_pos hz]
            refine List.Pairwise.cons ?_ (ih (ix + 1) (by omega))
            intro q hq
            have hmem := (mem_densePairsFrom vec (ix + 1) q).mp hq
            show ix < q.1
            omega
          · rw [if_neg hz]
            exact ih (ix + 1) (by omega)
        · rw [densePairsFrom.eq_def, dif_neg hlt]
          exact List.Pairwise.nil
  exact H (vec.length - ix) ix (Nat.le_refl _)

/-- Claim C8: the `UnicodePointMap` iterator yields exactly the dense-tier
entries with non-zero count, in increasing code-point order, followed by
the sparse-tier entries; every yielded pair has a non-zero count whenever
the sparse tier satisfies its no-zero invariant; and once `next` has
returned end-of-sequence, every subsequent call returns end-of-sequence
from the same state. -/
theorem upm_iter_spec :
    ∀ u : UnicodePointMap,
      UPMIter.toList u.iter = densePairsFrom u.vec 0 ++ u.map ∧
      (∀ p : Nat × Int, p ∈ densePairsFrom u.vec 0 ↔
        p.1 < u.vec.length ∧ u.vec.getD p.1 0 = p.2 ∧ p.2 ≠ 0) ∧
      (densePairsFrom u.vec 0).Pairwise (fun p q => p.1 < q.1) ∧
      ((∀ q ∈ u.map, q.2 ≠ 0) → ∀ p ∈ UPMIter.toList u.iter, p.2 ≠ 0) ∧
      (∀ it : UPMIter, (UPMIter.next it).1 = none →
        UPMIter.next (UPMIter.next it).2 = (none, (UPMIter.next it).2)) := by
  intro u
  have htl : UPMIter.toList u.iter = densePairsFrom u.vec 0 ++ u.map := by
    show toListFuel (UPMIter.size u.iter)
        { upm := u, vec_index := some 0, map_iter := none } =
      densePairsFrom u.vec 0 ++ u.map
    apply toListFuel_vec_phase
    show u.vec.length + 1 - 0 + u.map.length + 1 ≤ UPMIter.size u.iter
    simp [UPMIter.size, UnicodePointMap.iter]
  refine ⟨htl, ?_, densePairsFrom_pairwise u.vec 0, ?_, upm_next_fused⟩
  · intro p
    rw [mem_densePairsFrom u.vec 0 p]
    constructor
    · rintro ⟨-, h2, h3, h4⟩
      exact ⟨h2, h3, h4⟩
    · rintro ⟨h2, h3, h4⟩
      exact ⟨Nat.zero_le _, h2, h3, h4⟩
  · intro hm p hp
    rw [htl] at hp
    rcases List.mem_append.mp hp with hd | hs
    · exact ((mem_densePairsFrom u.vec 0 p).mp hd).2.2.2
    · exact hm p hs

/-- Witness for C8: instantiated on a map with a dense entry at code
point 1 and a sparse entry at code point 5, and fusedness on an already
exhausted iterator state. -/
theorem upm_iter_spec_witness :
    UPMIter.toList (((UnicodePointMap.new 2).push 1).push_n 5 3).iter =
      densePairsFrom (((UnicodePointMap.new 2).push 1).push_n 5 3).vec 0 ++
        (((UnicodePointMap.new 2).push 1).push_n 5 3).map ∧
    ((1 : Nat), (1 : Int)) ∈ densePairsFrom (((UnicodePointMap.new 2).push 1).push_n 5 3).vec 0 ∧
    ((1 : Nat), (1 : Int)).2 ≠ 0 ∧
    UPMIter.next
        (UPMIter.next
          { upm := UnicodePointMap.new 0, vec_index := none, map_iter := none }).2 =
      (none,
        (UPMIter.next
          { upm := UnicodePointMap.new 0, vec_index := none, map_iter := none }).2) := by
  have H := upm_iter_spec (((UnicodePointMap.new 2).push 1).push_n 5 3)
  have hmem : ((1 : Nat), (1 : Int)) ∈
      densePairsFrom (((UnicodePointMap.new 2).push 1).push_n 5 3).vec 0 :=
    (H.2.1 ((1 : Nat), (1 : Int))).mpr (by decide)
  refine ⟨H.1, hmem, ?_, ?_⟩
  · refine H.2.2.2.1 (by decide) ((1 : Nat), (1 : Int)) ?_
    rw [H.1]
    exact List.mem_append_left _ hmem
  · exact H.2.2.2.2
      { upm := UnicodePointMap.new 0, vec_index := none, map_iter := none } rfl
